import Mathlib

/-!
Verification of the report-viewer back end (Go sources `internal/db.go`,
`internal/util.go`) against its natural-language specification.

The embedding works over `List Char` for Go strings (Go strings here are
byte/rune sequences; all operations used by the code — substring containment,
split at the first colon, whitespace trimming, concatenation — are modelled
directly on the character list).  Fallible operations (Go code that reaches
`HandleError`, which panics on a non-nil error) are modelled with `Option` or
`Except`: a `none` / `.error` result models the panic.
-/

namespace ReportViewer

/-! ## Go string helpers (`strings` package operations used by `util.go`) -/

/-- Whitespace test used by Go's `strings.TrimSpace` (`unicode.IsSpace`),
restricted to the Latin-1 range: tab, newline, vertical tab, form feed,
carriage return, space, NEL (U+0085) and NBSP (U+00A0). -/
def goIsSpace (c : Char) : Bool :=
  c == ' ' || c == '\t' || c == '\n' || c == '\x0b' || c == '\x0c' ||
  c == '\r' || c == '\u0085' || c == ' '

/-- Go `strings.TrimSpace`: drop whitespace from both ends. -/
def trimSpace (s : List Char) : List Char :=
  ((s.dropWhile goIsSpace).reverse.dropWhile goIsSpace).reverse

/-- Go `strings.SplitN(s, ":", 2)`: if `s` has no colon the result is `[s]`;
otherwise the part before the first colon and everything after it. -/
def splitN2Colon : List Char → List (List Char)
  | [] => [[]]
  | c :: rest =>
    if c = ':' then [[], rest]
    else
      match splitN2Colon rest with
      | [] => [[c]]
      | x :: xs => (c :: x) :: xs

/-- Go `strings.Contains(line, key)`: `key` occurs as a contiguous substring
of `line`.  Modelled with the decidable list-infix predicate. -/
def goContains (line key : List Char) : Bool := decide (key <:+: line)

/-- Go `internal/util.go ExtractValueFromLine(line, key)`: if `line` contains
`key` as a substring, split `line` at its first colon and return the second
part trimmed of surrounding whitespace; otherwise return the empty string.
The index-1 access mirrors `stringArray[1]` in the source. -/
def ExtractValueFromLine (line key : List Char) : List Char :=
  if goContains line key then trimSpace ((splitN2Colon line).get! 1) else []

/-! ## Text parser (the scan loop of `AddReportToDatabaseAndElasticSearch`) -/

/-- The literal key marker `"Title:"`. -/
def titleKey : List Char := ['T', 'i', 't', 'l', 'e', ':']

/-- The literal key marker `"Author:"`. -/
def authorKey : List Char := ['A', 'u', 't', 'h', 'o', 'r', ':']

/-- The literal ellipsis marker `"..."` appended to a non-empty synopsis. -/
def ellipsis : List Char := ['.', '.', '.']

/-- State of the `for scanner.Scan()` loop in
`AddReportToDatabaseAndElasticSearch` (`internal/db.go`): the line counter and
the four accumulated fields. -/
structure ScanState where
  counter : Nat
  name : List Char
  author : List Char
  text : List Char
  synopsis : List Char
deriving DecidableEq

/-- One iteration of the scan loop: the first five lines are appended (with
the scanner's stripped newline restored) to the synopsis, `name` / `author`
are filled from the first line whose extraction is non-empty, every line is
appended to the full text, and the counter is incremented. -/
def scanLine (st : ScanState) (line : List Char) : ScanState :=
  ⟨st.counter + 1,
   if st.name = [] then ExtractValueFromLine line titleKey else st.name,
   if st.author = [] then ExtractValueFromLine line authorKey else st.author,
   st.text ++ line ++ ['\n'],
   if st.counter < 5 then st.synopsis ++ line ++ ['\n'] else st.synopsis⟩

/-- Result of the text parser: the four extracted fields. -/
structure ParsedDoc where
  name : List Char
  author : List Char
  synopsis : List Char
  text : List Char
deriving DecidableEq

/-- The parser of `AddReportToDatabaseAndElasticSearch` (`internal/db.go`,
lines 120–152) applied to the document's list of lines (the
`bufio.Scanner` yields the lines without their terminating newline): run the
scan loop from the zero state, then append the ellipsis marker if any
synopsis content was captured (`if len(synopsis) > 0`). -/
def parseLines (lines : List (List Char)) : ParsedDoc :=
  let st := lines.foldl scanLine ⟨0, [], [], [], []⟩
  ⟨st.name, st.author,
   if 0 < st.synopsis.length then st.synopsis ++ ellipsis else st.synopsis,
   st.text⟩

/-- Join document lines back into raw text, restoring the newline after each
line exactly as the scan loop's `synopsis += line + "\n"` does. -/
def joinLines (ls : List (List Char)) : List Char :=
  (ls.map (fun l => l ++ ['\n'])).flatten

/-- First non-empty `ExtractValueFromLine` result over a list of lines
(`[]` when every line extracts to empty).  This is what the scan loop's
`if name == "" { name = ExtractValueFromLine(line, key) }` computes. -/
def firstExtract (key : List Char) : List (List Char) → List Char
  | [] => []
  | l :: ls =>
    if ExtractValueFromLine l key = [] then firstExtract key ls
    else ExtractValueFromLine l key

/-! ## Lemmas about the parser -/

theorem foldl_scanLine_synopsis (lines : List (List Char)) (st : ScanState) :
    (lines.foldl scanLine st).synopsis =
      st.synopsis ++ joinLines (lines.take (5 - st.counter)) := by
  induction lines generalizing st with
  | nil => simp [joinLines]
  | cons l ls ih =>
    rw [List.foldl_cons, ih]
    by_cases h : st.counter < 5
    · have h5 : 5 - st.counter = (5 - (st.counter + 1)) + 1 := by omega
      rw [h5, List.take_succ_cons]
      simp [scanLine, h, joinLines]
    · have h5 : 5 - st.counter = 0 := by omega
      have h6 : 5 - (st.counter + 1) = 0 := by omega
      simp [scanLine, h, h5, h6, joinLines]

theorem foldl_scanLine_name (lines : List (List Char)) (st : ScanState) :
    (lines.foldl scanLine st).name =
      if st.name = [] then firstExtract titleKey lines else st.name := by
  induction lines generalizing st with
  | nil =>
    simp only [List.foldl_nil, firstExtract]
    by_cases h : st.name = [] <;> simp [h]
  | cons l ls ih =>
    rw [List.foldl_cons, ih]
    by_cases h : st.name = []
    · by_cases h2 : ExtractValueFromLine l titleKey = []
      · simp [scanLine, h, h2, firstExtract]
      · simp [scanLine, h, h2, firstExtract]
    · simp [scanLine, h]

theorem foldl_scanLine_author (lines : List (List Char)) (st : ScanState) :
    (lines.foldl scanLine st).author =
      if st.author = [] then firstExtract authorKey lines else st.author := by
  induction lines generalizing st with
  | nil =>
    simp only [List.foldl_nil, firstExtract]
    by_cases h : st.author = [] <;> simp [h]
  | cons l ls ih =>
    rw [List.foldl_cons, ih]
    by_cases h : st.author = []
    · by_cases h2 : ExtractValueFromLine l authorKey = []
      · simp [scanLine, h, h2, firstExtract]
      · simp [scanLine, h, h2, firstExtract]
    · simp [scanLine, h]

theorem extract_eq_nil_of_not_contains {l key : List Char}
    (h : goContains l key = false) : ExtractValueFromLine l key = [] := by
  simp [ExtractValueFromLine, h]

theorem firstExtract_of_no_match {key : List Char} {lines : List (List Char)}
    (h : ∀ l ∈ lines, goContains l key = false) :
    firstExtract key lines = [] := by
  induction lines with
  | nil => rfl
  | cons l ls ih =>
    have h1 : ExtractValueFromLine l key = [] :=
      extract_eq_nil_of_not_contains (h l (by simp))
    simp only [firstExtract, h1, if_pos rfl]
    exact ih fun x hx => h x (by simp [hx])

theorem firstExtract_of_first {key v tl : List Char} {lines : List (List Char)}
    {i : Nat} (hget : lines.get? i = some tl)
    (hbefore : ∀ l ∈ lines.take i, goContains l key = false)
    (hv : ExtractValueFromLine tl key = v) (hne : v ≠ []) :
    firstExtract key lines = v := by
  induction lines generalizing i with
  | nil => simp at hget
  | cons l ls ih =>
    cases i with
    | zero =>
      simp only [List.get?_cons_zero, Option.some.injEq] at hget
      subst hget
      simp [firstExtract, hv, hne]
    | succ n =>
      have h0 : goContains l key = false := hbefore l (by simp)
      have hE : ExtractValueFromLine l key = [] :=
        extract_eq_nil_of_not_contains h0
      simp only [firstExtract, hE, if_pos rfl]
      simp only [List.get?_cons_succ] at hget
      exact ih hget (fun x hx => hbefore x (by simp [hx]))

theorem splitN2Colon_ne_nil (s : List Char) : splitN2Colon s ≠ [] := by
  induction s with
  | nil => simp [splitN2Colon]
  | cons c rest ih =>
    by_cases h : c = ':'
    · simp [splitN2Colon, h]
    · simp only [splitN2Colon, if_neg h]
      cases hs : splitN2Colon rest with
      | nil => simp
      | cons x xs => simp

theorem splitN2Colon_length_of_mem {s : List Char} (h : ':' ∈ s) :
    (splitN2Colon s).length = 2 := by
  induction s with
  | nil => simp at h
  | cons c rest ih =>
    by_cases hc : c = ':'
    · simp [splitN2Colon, hc]
    · have hmem : ':' ∈ rest := by
        rcases List.mem_cons.mp h with h1 | h1
        · exact absurd h1.symm hc
        · exact h1
      have h2 := ih hmem
      simp only [splitN2Colon, if_neg hc]
      cases hs : splitN2Colon rest with
      | nil => exact absurd hs (splitN2Colon_ne_nil rest)
      | cons x xs =>
        rw [hs] at h2
        simpa using h2

/-! ## Concrete document lines used by the testable properties -/

def titleFooLine : List Char := ['T', 'i', 't', 'l', 'e', ':', ' ', 'F', 'o', 'o']

def authorBarLine : List Char :=
  ['A', 'u', 't', 'h', 'o', 'r', ':', ' ', 'B', 'a', 'r']

def fooVal : List Char := ['F', 'o', 'o']

def barVal : List Char := ['B', 'a', 'r']

/-! ## Claim C3: synopsis -/

/-- C3: for every document with at least one line, the parsed synopsis equals
the document's first 5 lines joined (each line followed by its restored
newline), plus the literal ellipsis suffix `"..."`; for an empty document the
synopsis is the empty string with no ellipsis. -/
theorem synopsis_first_five_lines (lines : List (List Char)) :
    (lines ≠ [] →
      (parseLines lines).synopsis = joinLines (lines.take 5) ++ ellipsis)
    ∧ (parseLines []).synopsis = [] := by
  constructor
  · intro hne
    have hs := foldl_scanLine_synopsis lines ⟨0, [], [], [], []⟩
    simp only [parseLines]
    rw [hs]
    have hpos : 0 < (joinLines (lines.take 5)).length := by
      cases lines with
      | nil => exact absurd rfl hne
      | cons l ls => simp [joinLines]
    simp [hpos]
  · rfl

/-- Witness for C3 on the concrete six-line document `a`,`b`,`c`,`d`,`e`,`f`:
the synopsis is the first five lines, newline-joined, plus the ellipsis. -/
theorem synopsis_first_five_lines_witness :
    (parseLines [['a'], ['b'], ['c'], ['d'], ['e'], ['f']]).synopsis =
      joinLines ([['a'], ['b'], ['c'], ['d'], ['e'], ['f']].take 5) ++
        ellipsis :=
  (synopsis_first_five_lines [['a'], ['b'], ['c'], ['d'], ['e'], ['f']]).1
    (by decide)

/-! ## Claim C4: title and author extraction -/

/-- C4: for every document containing the line `"Title: Foo"` and the line
`"Author: Bar"` at any positions, provided each is the first line containing
its key marker (the parser takes each value from only the first matching
line), the parser yields `name = "Foo"` and `author = "Bar"`; the two
extractions are independent of each other's position; and if no line
contains a marker, that field remains empty. -/
theorem parse_title_author (lines : List (List Char)) :
    (∀ i j : Nat, lines.get? i = some titleFooLine →
      lines.get? j = some authorBarLine →
      (∀ l ∈ lines.take i, goContains l titleKey = false) →
      (∀ l ∈ lines.take j, goContains l authorKey = false) →
      (parseLines lines).name = fooVal ∧ (parseLines lines).author = barVal)
    ∧ ((∀ l ∈ lines, goContains l titleKey = false) →
      (parseLines lines).name = [])
    ∧ ((∀ l ∈ lines, goContains l authorKey = false) →
      (parseLines lines).author = []) := by
  have hname := foldl_scanLine_name lines ⟨0, [], [], [], []⟩
  have hauthor := foldl_scanLine_author lines ⟨0, [], [], [], []⟩
  simp only [if_pos rfl] at hname hauthor
  refine ⟨fun i j hi hj hbi hbj => ⟨?_, ?_⟩, fun h => ?_, fun h => ?_⟩
  · simp only [parseLines]
    rw [hname]
    exact firstExtract_of_first hi hbi (by decide) (by decide)
  · simp only [parseLines]
    rw [hauthor]
    exact firstExtract_of_first hj hbj (by decide) (by decide)
  · simp only [parseLines]
    rw [hname]
    exact firstExtract_of_no_match h
  · simp only [parseLines]
    rw [hauthor]
    exact firstExtract_of_no_match h

/-- Witness for C4 on a concrete document: a filler first line, then the
author line, then the title line (so the two markers sit on different,
swapped positions). -/
theorem parse_title_author_witness :
    (parseLines [['x'], authorBarLine, titleFooLine]).name = fooVal ∧
      (parseLines [['x'], authorBarLine, titleFooLine]).author = barVal :=
  (parse_title_author [['x'], authorBarLine, titleFooLine]).1 2 1
    (by decide) (by decide) (by decide) (by decide)

/-! ## Claim C10: ExtractValueFromLine is in bounds -/

/-- C10: `ExtractValueFromLine` is total and never accesses an out-of-bounds
index: for every line and every key that itself contains a colon (as
`"Title:"` and `"Author:"` do), whenever the containment guard passes the
split at the first colon yields at least two parts, so the `[1]` access is in
bounds; when the guard fails the function returns the empty string. -/
theorem extractValue_index_inbounds (line key : List Char) :
    (':' ∈ key → goContains line key = true →
      2 ≤ (splitN2Colon line).length)
    ∧ (goContains line key = false → ExtractValueFromLine line key = []) := by
  constructor
  · intro hkey hc
    have hinf : key <:+: line := by
      simpa [goContains] using hc
    have hline : ':' ∈ line := hinf.subset hkey
    rw [splitN2Colon_length_of_mem hline]
  · intro h
    exact extract_eq_nil_of_not_contains h

/-- Witness for C10: on the line `"Title: Foo"` with key `"Title:"` the guard
passes and the split has two parts; on the key-free line `"x"` the guard
fails and the extraction is empty. -/
theorem extractValue_index_inbounds_witness :
    2 ≤ (splitN2Colon titleFooLine).length ∧
      ExtractValueFromLine ['x'] titleKey = [] :=
  ⟨(extractValue_index_inbounds titleFooLine titleKey).1 (by decide)
      (by decide),
    (extractValue_index_inbounds ['x'] titleKey).2 (by decide)⟩

/-! ## Tag diff engine (`UpdateReportTagListByReportId`, `internal/db.go`)

A `report_tag` association row stores `(report_id, tag_id, active)`; all SQL
statements issued by the diff engine filter on one fixed `report_id`, so the
server association state for that report is a list of `(tag id, active flag)`
records.  The Go `ReportTag` struct additionally embeds the joined catalog
`Tag`'s `name` and `color`; those are display payload that neither the diff
engine (which keys on `Id` and compares `Active`) nor the `report_tag` table
(which stores only `report_id, tag_id, active`) ever consults, so the
embedding keeps the two consulted fields. -/

structure ReportTag where
  id : Int
  active : Bool
deriving DecidableEq

/-- Lookup in a list of tag associations by tag id, mirroring a Go map access
`m[id]` (for the maps built below, and `SELECT ... WHERE tag_id = id` on the
server rows). -/
def findTag (l : List ReportTag) (i : Int) : Option ReportTag :=
  l.find? (fun t => t.id == i)

/-- Active flag recorded for tag id `i`, if any. -/
def lookupActive (l : List ReportTag) (i : Int) : Option Bool :=
  (findTag l i).map (fun t => t.active)

/-- Go map assignment `m[t.Id] = t` on an association list keyed by tag id:
overwrite any existing entry. -/
def mapInsert (m : List ReportTag) (t : ReportTag) : List ReportTag :=
  (m.filter (fun x => x.id != t.id)) ++ [t]

/-- Go `delete(m, i)` on an association list keyed by tag id. -/
def mapErase (m : List ReportTag) (i : Int) : List ReportTag :=
  m.filter (fun x => x.id != i)

/-- The loops `clientReportTagMap[reportTag.Id] = reportTag` /
`serverReportTagMap[reportTag.Id] = reportTag`: build a map keyed by tag id
from a list. -/
def buildTagMap (l : List ReportTag) : List ReportTag :=
  l.foldl mapInsert []

/-- State of the reconciliation loop over `clientReportTagList`: the two
shrinking maps and the accumulated `reportTagsToUpdate`. -/
structure DiffAcc where
  serverMap : List ReportTag
  clientMap : List ReportTag
  toUpdate : List ReportTag
deriving DecidableEq

/-- One iteration of the loop over `clientReportTagList`: if the client tag
has a corresponding server tag, schedule an update when the active flags
differ and remove the tag id from both maps. -/
def diffStep (acc : DiffAcc) (c : ReportTag) : DiffAcc :=
  match findTag acc.serverMap c.id with
  | some s =>
    ⟨mapErase acc.serverMap c.id, mapErase acc.clientMap c.id,
      if s.active != c.active then acc.toUpdate ++ [c] else acc.toUpdate⟩
  | none => acc

/-- The diff computation of `UpdateReportTagListByReportId`
(`internal/db.go`, lines 367–408): build the two maps, reconcile every
client tag against the server map, then the tags remaining in the client map
are `toInsert` and the tags remaining in the server map are `toDelete`.
Result: `(toInsert, toUpdate, toDelete)`. -/
def computeTagDiff (server client : List ReportTag) :
    List ReportTag × List ReportTag × List ReportTag :=
  let acc := client.foldl diffStep ⟨buildTagMap server, buildTagMap client, []⟩
  (acc.clientMap, acc.toUpdate, acc.serverMap)

/-- Go `insertReportTag` (`internal/db.go`, lines 425–434):
`INSERT INTO report_tag(report_id, tag_id, active)` — appends one association
row for the fixed report. -/
def insertReportTag (st : List ReportTag) (t : ReportTag) : List ReportTag :=
  st ++ [t]

/-- Go `updateReportTag` (`internal/db.go`, lines 447–456):
`UPDATE report_tag SET active = $1 WHERE report_id = $2 AND tag_id = $3` —
sets the active flag of every row of the fixed report with the given tag id
(a no-op when no row matches). -/
def updateReportTag (st : List ReportTag) (t : ReportTag) : List ReportTag :=
  st.map (fun s => if s.id = t.id then ⟨s.id, t.active⟩ else s)

/-- Go `deleteReportTag` (`internal/db.go`, lines 436–445):
`DELETE FROM report_tag WHERE report_id = $1 AND tag_id = $2` — removes every
row of the fixed report with the given tag id (a no-op when no row
matches). -/
def deleteReportTag (st : List ReportTag) (t : ReportTag) : List ReportTag :=
  st.filter (fun s => s.id != t.id)

/-- Go `UpdateReportTagListByReportId` (`internal/db.go`, lines 362–423)
restricted to the fixed report: compute the diff of the client list against
the server state, then apply all inserts, then all updates, then all
deletes. -/
def UpdateReportTagListByReportId (server client : List ReportTag) :
    List ReportTag :=
  let d := computeTagDiff server client
  let st1 := d.1.foldl insertReportTag server
  let st2 := d.2.1.foldl updateReportTag st1
  d.2.2.foldl deleteReportTag st2

/-- The three output sets of the diff engine, used to state that they may be
applied in any order. -/
inductive TagOp where
  | insertOp : TagOp
  | updateOp : TagOp
  | deleteOp : TagOp
deriving DecidableEq

/-- Apply the three computed sets against the server state in the order given
by `order` (the source applies `[insertOp, updateOp, deleteOp]`). -/
def applyTagOps (server client : List ReportTag) (order : List TagOp) :
    List ReportTag :=
  let d := computeTagDiff server client
  order.foldl
    (fun st op =>
      match op with
      | TagOp.insertOp => d.1.foldl insertReportTag st
      | TagOp.updateOp => d.2.1.foldl updateReportTag st
      | TagOp.deleteOp => d.2.2.foldl deleteReportTag st)
    server

/-- A list of tag associations mentions each tag id at most once.  This is
the data-model invariant "at most one association row per (report, tag)
pair" for the server list, and the well-formedness of the client's submitted
list (without it, "the client's submitted state" of a tag id is not a
function of the list). -/
def nodupIds (l : List ReportTag) : Prop := (l.map (fun t => t.id)).Nodup

instance (l : List ReportTag) : Decidable (nodupIds l) := by
  unfold nodupIds; infer_instance

/-! ## Lemmas about `findTag` and the association-list maps -/

theorem findTag_cons (t : ReportTag) (l : List ReportTag) (i : Int) :
    findTag (t :: l) i = if t.id = i then some t else findTag l i := by
  by_cases h : t.id = i <;> simp [findTag, List.find?_cons, h]

theorem findTag_eq_none {l : List ReportTag} {i : Int} :
    findTag l i = none ↔ ∀ t ∈ l, t.id ≠ i := by
  simp [findTag, List.find?_eq_none]

theorem findTag_id {l : List ReportTag} {i : Int} {t : ReportTag}
    (h : findTag l i = some t) : t.id = i := by
  have := List.find?_some h
  simpa using this

theorem findTag_mem {l : List ReportTag} {i : Int} {t : ReportTag}
    (h : findTag l i = some t) : t ∈ l :=
  List.mem_of_find?_eq_some h

theorem findTag_isSome_of_mem {l : List ReportTag} {t : ReportTag}
    (h : t ∈ l) : (findTag l t.id).isSome := by
  rw [findTag, List.find?_isSome]
  exact ⟨t, h, by simp⟩

theorem findTag_eq_none_of_not_mem_ids {l : List ReportTag} {i : Int}
    (h : i ∉ l.map (fun t => t.id)) : findTag l i = none := by
  rw [findTag_eq_none]
  intro t ht hti
  exact h (hti ▸ List.mem_map_of_mem (fun t => t.id) ht)

theorem findTag_of_mem_nodup {l : List ReportTag} {t : ReportTag}
    (h : nodupIds l) (ht : t ∈ l) : findTag l t.id = some t := by
  induction l with
  | nil => simp at ht
  | cons x xs ih =>
    have hx : x.id ∉ xs.map (fun t => t.id) := by
      have := h
      simp only [nodupIds, List.map_cons, List.nodup_cons] at this
      exact this.1
    have hxs : nodupIds xs := by
      have := h
      simp only [nodupIds, List.map_cons, List.nodup_cons] at this
      exact this.2
    rcases List.mem_cons.mp ht with rfl | hmem
    · simp [findTag_cons]
    · rw [findTag_cons]
      have hne : x.id ≠ t.id := by
        intro he
        exact hx (he ▸ List.mem_map_of_mem (fun t => t.id) hmem)
      rw [if_neg hne]
      exact ih hxs hmem

theorem findTag_filter {l : List ReportTag} (h : nodupIds l)
    (p : ReportTag → Bool) (i : Int) :
    findTag (l.filter p) i =
      match findTag l i with
      | some t => if p t then some t else none
      | none => none := by
  induction l with
  | nil => rfl
  | cons t ts ih =>
    have ht_not : t.id ∉ ts.map (fun x => x.id) := by
      have h2 := h
      simp only [nodupIds, List.map_cons, List.nodup_cons] at h2
      exact h2.1
    have hts : nodupIds ts := by
      have h2 := h
      simp only [nodupIds, List.map_cons, List.nodup_cons] at h2
      exact h2.2
    have ihts := ih hts
    by_cases hid : t.id = i
    · have hnone : findTag ts i = none :=
        findTag_eq_none_of_not_mem_ids (hid ▸ ht_not)
      by_cases hp : p t <;>
        simp [List.filter_cons, hp, findTag_cons, hid, ihts, hnone]
    · by_cases hp : p t <;>
        simp [List.filter_cons, hp, findTag_cons, hid, ihts]

theorem findTag_mapErase (m : List ReportTag) (k i : Int) :
    findTag (mapErase m k) i = if i = k then none else findTag m i := by
  induction m with
  | nil => simp [mapErase, findTag]
  | cons t ts ih =>
    simp only [mapErase] at ih ⊢
    by_cases htk : t.id = k <;> by_cases hik : i = k <;>
      by_cases hti : t.id = i <;>
      simp_all [List.filter_cons, findTag_cons]

theorem nodupIds_cons_head {t : ReportTag} {ts : List ReportTag}
    (h : nodupIds (t :: ts)) : t.id ∉ ts.map (fun x => x.id) := by
  simp only [nodupIds, List.map_cons, List.nodup_cons] at h
  exact h.1

theorem nodupIds_cons_tail {t : ReportTag} {ts : List ReportTag}
    (h : nodupIds (t :: ts)) : nodupIds ts := by
  simp only [nodupIds, List.map_cons, List.nodup_cons] at h
  exact h.2

theorem nodupIds_filter {l : List ReportTag} (p : ReportTag → Bool)
    (h : nodupIds l) : nodupIds (l.filter p) := by
  unfold nodupIds at h ⊢
  exact ((List.filter_sublist l).map (fun t => t.id)).nodup h

theorem foldl_mapInsert (l : List ReportTag) :
    ∀ acc : List ReportTag, nodupIds l →
      (∀ t ∈ l, ∀ a ∈ acc, a.id ≠ t.id) →
      l.foldl mapInsert acc = acc ++ l := by
  induction l with
  | nil => intro acc _ _; simp
  | cons t ts ih =>
    intro acc hl hdisj
    have hins : mapInsert acc t = acc ++ [t] := by
      unfold mapInsert
      rw [List.filter_eq_self.mpr]
      intro a ha
      simpa using hdisj t (by simp) a ha
    rw [List.foldl_cons, hins,
      ih (acc ++ [t]) (nodupIds_cons_tail hl) ?_]
    · simp
    · intro x hx a ha
      rcases List.mem_append.mp ha with h1 | h1
      · exact hdisj x (by simp [hx]) a h1
      · have : a = t := by simpa using h1
        subst this
        intro he
        exact nodupIds_cons_head hl
          (he ▸ List.mem_map_of_mem (fun y => y.id) hx)

theorem buildTagMap_eq {l : List ReportTag} (h : nodupIds l) :
    buildTagMap l = l := by
  unfold buildTagMap
  rw [foldl_mapInsert l [] h (by simp)]
  simp

theorem foldl_diffStep (cs : List ReportTag) :
    ∀ sm cm tu : List ReportTag, nodupIds cs → nodupIds sm →
      cs.foldl diffStep ⟨sm, cm, tu⟩ =
        ⟨sm.filter (fun s => (findTag cs s.id).isNone),
         cm.filter (fun c =>
           !((findTag cs c.id).isSome && (findTag sm c.id).isSome)),
         tu ++ cs.filter (fun c =>
           match findTag sm c.id with
           | some s => s.active != c.active
           | none => false)⟩ := by
  induction cs with
  | nil =>
    intro sm cm tu _ _
    simp [List.foldl_nil, findTag]
  | cons c cs ih =>
    intro sm cm tu hcs hsm
    have hcs' : nodupIds cs := nodupIds_cons_tail hcs
    have hcid : c.id ∉ cs.map (fun x => x.id) := nodupIds_cons_head hcs
    rw [List.foldl_cons]
    cases hf : findTag sm c.id with
    | none =>
      have hstep : diffStep ⟨sm, cm, tu⟩ c = ⟨sm, cm, tu⟩ := by
        simp [diffStep, hf]
      rw [hstep, ih sm cm tu hcs' hsm]
      simp only [DiffAcc.mk.injEq]
      refine ⟨?_, ?_, ?_⟩
      · apply List.filter_congr
        intro s hs
        have hne : c.id ≠ s.id := by
          intro he
          have h2 := findTag_isSome_of_mem hs
          rw [← he, hf] at h2
          simp at h2
        rw [findTag_cons, if_neg hne]
      · apply List.filter_congr
        intro x hx
        rw [findTag_cons]
        by_cases hxe : c.id = x.id
        · rw [if_pos hxe, ← hxe, hf]
          simp
        · rw [if_neg hxe]
      · congr 1
        rw [List.filter_cons]
        simp only [hf]
        simp
    | some s =>
      have hstep : diffStep ⟨sm, cm, tu⟩ c =
          ⟨mapErase sm c.id, mapErase cm c.id,
            if s.active != c.active then tu ++ [c] else tu⟩ := by
        simp [diffStep, hf]
      have hsm' : nodupIds (mapErase sm c.id) :=
        nodupIds_filter _ hsm
      rw [hstep, ih _ _ _ hcs' hsm']
      simp only [DiffAcc.mk.injEq]
      refine ⟨?_, ?_, ?_⟩
      · unfold mapErase
        rw [List.filter_filter]
        apply List.filter_congr
        intro x hx
        rw [findTag_cons]
        by_cases hxe : c.id = x.id
        · rw [if_pos hxe]
          simp [← hxe]
        · rw [if_neg hxe]
          have hb : (x.id != c.id) = true := by
            simp only [bne_iff_ne, ne_eq]
            omega
          rw [hb]
          simp
      · unfold mapErase
        rw [List.filter_filter]
        apply List.filter_congr
        intro x hx
        rw [findTag_cons]
        by_cases hxe : c.id = x.id
        · rw [if_pos hxe, ← hxe, hf]
          simp
        · rw [if_neg hxe]
          have hm := findTag_mapErase sm c.id x.id
          unfold mapErase at hm
          rw [hm, if_neg (by omega : ¬x.id = c.id)]
          have hb : (x.id != c.id) = true := by
            simp only [bne_iff_ne, ne_eq]
            omega
          rw [hb]
          simp
      · rw [List.filter_cons]
        simp only [hf]
        have hfs : cs.filter (fun x =>
            match findTag (mapErase sm c.id) x.id with
            | some s => s.active != x.active
            | none => false) = cs.filter (fun x =>
            match findTag sm x.id with
            | some s => s.active != x.active
            | none => false) := by
          apply List.filter_congr
          intro x hx
          have hne : ¬x.id = c.id := by
            intro he
            exact hcid (he ▸ List.mem_map_of_mem (fun y => y.id) hx)
          rw [findTag_mapErase, if_neg hne]
        rw [hfs]
        by_cases hact : s.active != c.active
        · simp only [hact, if_true]
          simp
        · simp only [hact, if_false]
          simp only [bne_iff_ne, ne_eq, not_not] at hact
          simp [hact]

theorem computeTagDiff_char (server client : List ReportTag)
    (hs : nodupIds server) (hc : nodupIds client) :
    computeTagDiff server client =
      (client.filter (fun c => (findTag server c.id).isNone),
       client.filter (fun c =>
         match findTag server c.id with
         | some s => s.active != c.active
         | none => false),
       server.filter (fun s => (findTag client s.id).isNone)) := by
  unfold computeTagDiff
  rw [buildTagMap_eq hs, buildTagMap_eq hc,
    foldl_diffStep client server client [] hc hs]
  simp only [Prod.mk.injEq, List.nil_append, and_true, true_and]
  have e1 : client.filter (fun c =>
      !((findTag client c.id).isSome && (findTag server c.id).isSome)) =
      client.filter (fun c => (findTag server c.id).isNone) := by
    apply List.filter_congr
    intro c hcmem
    have hsome : (findTag client c.id).isSome = true :=
      findTag_isSome_of_mem hcmem
    rw [hsome]
    simp
  exact e1

theorem foldl_insertReportTag (l st : List ReportTag) :
    l.foldl insertReportTag st = st ++ l := by
  induction l generalizing st with
  | nil => simp
  | cons t ts ih =>
    rw [List.foldl_cons]
    have h1 : insertReportTag st t = st ++ [t] := rfl
    rw [h1, ih]
    simp

theorem findTag_append (l1 l2 : List ReportTag) (i : Int) :
    findTag (l1 ++ l2) i =
      match findTag l1 i with
      | some t => some t
      | none => findTag l2 i := by
  induction l1 with
  | nil => simp [findTag]
  | cons t ts ih =>
    rw [List.cons_append, findTag_cons, findTag_cons]
    by_cases h : t.id = i
    · simp [h]
    · simp only [if_neg h]
      exact ih

theorem lookupActive_cons (t : ReportTag) (l : List ReportTag) (i : Int) :
    lookupActive (t :: l) i =
      if t.id = i then some t.active else lookupActive l i := by
  unfold lookupActive
  rw [findTag_cons]
  by_cases h : t.id = i <;> simp [h]

theorem lookupActive_append (l1 l2 : List ReportTag) (i : Int) :
    lookupActive (l1 ++ l2) i =
      match lookupActive l1 i with
      | some a => some a
      | none => lookupActive l2 i := by
  unfold lookupActive
  rw [findTag_append]
  cases findTag l1 i <;> simp

theorem updateReportTag_id_preserved (st : List ReportTag) (t : ReportTag) :
    (updateReportTag st t).map (fun s => s.id) = st.map (fun s => s.id) := by
  unfold updateReportTag
  rw [List.map_map]
  apply List.map_congr_left
  intro s _
  by_cases h : s.id = t.id <;> simp [h]

theorem lookupActive_updateReportTag (st : List ReportTag) (t : ReportTag)
    (i : Int) :
    lookupActive (updateReportTag st t) i =
      if i = t.id then (lookupActive st i).map (fun _ => t.active)
      else lookupActive st i := by
  induction st with
  | nil =>
    unfold updateReportTag lookupActive
    simp [findTag]
  | cons s ss ih =>
    unfold updateReportTag at ih ⊢
    rw [List.map_cons]
    by_cases h1 : s.id = t.id <;> by_cases h2 : s.id = i <;>
      by_cases h3 : i = t.id <;>
      first
        | omega
        | simp_all [lookupActive_cons]

theorem lookupActive_foldl_update (upd : List ReportTag) :
    ∀ st : List ReportTag, nodupIds upd → ∀ i : Int,
      lookupActive (upd.foldl updateReportTag st) i =
        match findTag upd i with
        | some u => (lookupActive st i).map (fun _ => u.active)
        | none => lookupActive st i := by
  induction upd with
  | nil => intro st _ i; simp [findTag]
  | cons u us ih =>
    intro st hnd i
    rw [List.foldl_cons, ih _ (nodupIds_cons_tail hnd) i, findTag_cons]
    by_cases h1 : u.id = i
    · have hnone : findTag us i = none :=
        findTag_eq_none_of_not_mem_ids (h1 ▸ nodupIds_cons_head hnd)
      rw [hnone, if_pos h1, lookupActive_updateReportTag,
        if_pos (by omega : i = u.id)]
    · rw [if_neg h1]
      have hup : lookupActive (updateReportTag st u) i = lookupActive st i := by
        rw [lookupActive_updateReportTag, if_neg (by omega : ¬i = u.id)]
      rw [hup]

theorem lookupActive_deleteReportTag (st : List ReportTag) (t : ReportTag)
    (i : Int) :
    lookupActive (deleteReportTag st t) i =
      if i = t.id then none else lookupActive st i := by
  unfold lookupActive
  have hm := findTag_mapErase st t.id i
  unfold mapErase at hm
  unfold deleteReportTag
  rw [hm]
  by_cases h : i = t.id <;> simp [h]

theorem lookupActive_foldl_delete (del : List ReportTag) :
    ∀ st : List ReportTag, ∀ i : Int,
      lookupActive (del.foldl deleteReportTag st) i =
        if (findTag del i).isSome then none else lookupActive st i := by
  induction del with
  | nil => intro st i; simp [findTag]
  | cons d ds ih =>
    intro st i
    rw [List.foldl_cons, ih, findTag_cons]
    by_cases h1 : d.id = i
    · by_cases h2 : (findTag ds i).isSome
      · simp [h1, h2]
      · simp only [h1, if_true]
        rw [lookupActive_deleteReportTag, if_pos (by omega : i = d.id)]
        simp [h2]
    · rw [if_neg h1, lookupActive_deleteReportTag,
        if_neg (by omega : ¬i = d.id)]

theorem lookupActive_applyTagOps (server client : List ReportTag)
    (hs : nodupIds server) (hc : nodupIds client) (order : List TagOp)
    (hperm : order.Perm [TagOp.insertOp, TagOp.updateOp, TagOp.deleteOp])
    (i : Int) :
    lookupActive (applyTagOps server client order) i =
      lookupActive client i := by
  have hchar := computeTagDiff_char server client hs hc
  set insL := client.filter (fun c => (findTag server c.id).isNone)
    with hinsL
  set updL := client.filter (fun c =>
      match findTag server c.id with
      | some s => s.active != c.active
      | none => false) with hupdL
  set delL := server.filter (fun s => (findTag client s.id).isNone)
    with hdelL
  have hndupd : nodupIds updL := by
    rw [hupdL]
    exact nodupIds_filter _ hc
  have hI : ∀ st : List ReportTag,
      insL.foldl insertReportTag st = st ++ insL :=
    fun st => foldl_insertReportTag _ st
  have hU : ∀ st : List ReportTag,
      lookupActive (updL.foldl updateReportTag st) i =
        match findTag updL i with
        | some u => (lookupActive st i).map (fun _ => u.active)
        | none => lookupActive st i :=
    fun st => lookupActive_foldl_update _ st hndupd i
  have hD : ∀ st : List ReportTag,
      lookupActive (delL.foldl deleteReportTag st) i =
        if (findTag delL i).isSome then none else lookupActive st i :=
    fun st => lookupActive_foldl_delete _ st i
  have hlen := hperm.length_eq
  rcases order with _ | ⟨a, _ | ⟨b, _ | ⟨c', _ | ⟨d', rest⟩⟩⟩⟩ <;>
    simp only [List.length_cons, List.length_nil] at hlen <;> try omega
  rcases hcf : findTag client i with _ | cl <;>
    rcases hsf : findTag server i with _ | sv
  · -- the tag id is on neither side
    have hFins : findTag insL i = none := by
      rw [hinsL, findTag_filter hc, hcf]
    have hFupd : findTag updL i = none := by
      rw [hupdL, findTag_filter hc, hcf]
    have hFdel : findTag delL i = none := by
      rw [hdelL, findTag_filter hs, hsf]
    have hLins : lookupActive insL i = none := by
      unfold lookupActive
      rw [hFins]
      rfl
    have hLsv : lookupActive server i = none := by
      unfold lookupActive
      rw [hsf]
      rfl
    have hLc : lookupActive client i = none := by
      unfold lookupActive
      rw [hcf]
      rfl
    cases a <;> cases b <;> cases c' <;>
      first
        | exact absurd hperm (by decide)
        | simp [applyTagOps, hchar, hI, hU, hD, lookupActive_append,
            hFins, hFupd, hFdel, hLins, hLsv, hLc]
  · -- the tag id is only on the server: it is deleted
    have hsvid : sv.id = i := findTag_id hsf
    have hFins : findTag insL i = none := by
      rw [hinsL, findTag_filter hc, hcf]
    have hFupd : findTag updL i = none := by
      rw [hupdL, findTag_filter hc, hcf]
    have hFdel : findTag delL i = some sv := by
      rw [hdelL, findTag_filter hs, hsf]
      simp [hsvid, hcf]
    have hLins : lookupActive insL i = none := by
      unfold lookupActive
      rw [hFins]
      rfl
    have hLsv : lookupActive server i = some sv.active := by
      unfold lookupActive
      rw [hsf]
      rfl
    have hLc : lookupActive client i = none := by
      unfold lookupActive
      rw [hcf]
      rfl
    cases a <;> cases b <;> cases c' <;>
      first
        | exact absurd hperm (by decide)
        | simp [applyTagOps, hchar, hI, hU, hD, lookupActive_append,
            hFins, hFupd, hFdel, hLins, hLsv, hLc]
  · -- the tag id is only on the client: it is inserted
    have hclid : cl.id = i := findTag_id hcf
    have hFins : findTag insL i = some cl := by
      rw [hinsL, findTag_filter hc, hcf]
      simp [hclid, hsf]
    have hFupd : findTag updL i = none := by
      rw [hupdL, findTag_filter hc, hcf]
      simp [hclid, hsf]
    have hFdel : findTag delL i = none := by
      rw [hdelL, findTag_filter hs, hsf]
    have hLins : lookupActive insL i = some cl.active := by
      unfold lookupActive
      rw [hFins]
      rfl
    have hLsv : lookupActive server i = none := by
      unfold lookupActive
      rw [hsf]
      rfl
    have hLc : lookupActive client i = some cl.active := by
      unfold lookupActive
      rw [hcf]
      rfl
    cases a <;> cases b <;> cases c' <;>
      first
        | exact absurd hperm (by decide)
        | simp [applyTagOps, hchar, hI, hU, hD, lookupActive_append,
            hFins, hFupd, hFdel, hLins, hLsv, hLc]
  · -- the tag id is on both sides: kept, updated if the flags differ
    have hclid : cl.id = i := findTag_id hcf
    have hsvid : sv.id = i := findTag_id hsf
    have hFins : findTag insL i = none := by
      rw [hinsL, findTag_filter hc, hcf]
      simp [hclid, hsf]
    have hFdel : findTag delL i = none := by
      rw [hdelL, findTag_filter hs, hsf]
      simp [hsvid, hcf]
    have hFupd : findTag updL i =
        if (sv.active != cl.active) = true then some cl else none := by
      rw [hupdL, findTag_filter hc, hcf]
      simp [hclid, hsf]
    have hLins : lookupActive insL i = none := by
      unfold lookupActive
      rw [hFins]
      rfl
    have hLsv : lookupActive server i = some sv.active := by
      unfold lookupActive
      rw [hsf]
      rfl
    have hLc : lookupActive client i = some cl.active := by
      unfold lookupActive
      rw [hcf]
      rfl
    by_cases hact : sv.active = cl.active
    · have hFupd2 : findTag updL i = none := by
        rw [hFupd, hact]
        simp
      cases a <;> cases b <;> cases c' <;>
        first
          | exact absurd hperm (by decide)
          | simp [applyTagOps, hchar, hI, hU, hD, lookupActive_append,
              hFins, hFupd2, hFdel, hLins, hLsv, hLc, hact]
    · have hFupd2 : findTag updL i = some cl := by
        rw [hFupd]
        simp [hact]
      cases a <;> cases b <;> cases c' <;>
        first
          | exact absurd hperm (by decide)
          | simp [applyTagOps, hchar, hI, hU, hD, lookupActive_append,
              hFins, hFupd2, hFdel, hLins, hLsv, hLc]

theorem UpdateReportTagList_eq_applyTagOps (server client : List ReportTag) :
    UpdateReportTagListByReportId server client =
      applyTagOps server client
        [TagOp.insertOp, TagOp.updateOp, TagOp.deleteOp] := rfl

theorem lookupActive_UpdateReportTagList (server client : List ReportTag)
    (hs : nodupIds server) (hc : nodupIds client) (i : Int) :
    lookupActive (UpdateReportTagListByReportId server client) i =
      lookupActive client i := by
  rw [UpdateReportTagList_eq_applyTagOps]
  exact lookupActive_applyTagOps server client hs hc _ (by decide) i

theorem nodupIds_append {l1 l2 : List ReportTag} (h1 : nodupIds l1)
    (h2 : nodupIds l2) (hdisj : ∀ t ∈ l2, findTag l1 t.id = none) :
    nodupIds (l1 ++ l2) := by
  unfold nodupIds at h1 h2 ⊢
  rw [List.map_append, List.nodup_append]
  refine ⟨h1, h2, ?_⟩
  intro x hx1 hx2
  rcases List.mem_map.mp hx1 with ⟨t1, ht1, rfl⟩
  rcases List.mem_map.mp hx2 with ⟨t2, ht2, he⟩
  have hnone := hdisj t2 ht2
  rw [findTag_eq_none] at hnone
  exact hnone t1 ht1 he.symm

theorem nodupIds_foldl_update (upd : List ReportTag) :
    ∀ st : List ReportTag, nodupIds st →
      nodupIds (upd.foldl updateReportTag st) := by
  induction upd with
  | nil => intro st h; simpa using h
  | cons u us ih =>
    intro st h
    rw [List.foldl_cons]
    apply ih
    unfold nodupIds
    rw [updateReportTag_id_preserved]
    exact h

theorem nodupIds_foldl_delete (del : List ReportTag) :
    ∀ st : List ReportTag, nodupIds st →
      nodupIds (del.foldl deleteReportTag st) := by
  induction del with
  | nil => intro st h; simpa using h
  | cons d ds ih =>
    intro st h
    rw [List.foldl_cons]
    exact ih _ (nodupIds_filter _ h)

theorem nodupIds_UpdateReportTagList (server client : List ReportTag)
    (hs : nodupIds server) (hc : nodupIds client) :
    nodupIds (UpdateReportTagListByReportId server client) := by
  unfold UpdateReportTagListByReportId
  rw [computeTagDiff_char server client hs hc]
  apply nodupIds_foldl_delete
  apply nodupIds_foldl_update
  rw [foldl_insertReportTag]
  apply nodupIds_append hs (nodupIds_filter _ hc)
  intro t ht
  have hp := List.of_mem_filter ht
  simpa using hp

/-! ## Claim C1: applying the diff reproduces the client state -/

/-- C1: for every server association state and client-submitted tag list
(each mentioning a tag id at most once — the data-model invariant for the
server rows and the well-definedness condition for the client's submitted
state), after `UpdateReportTagListByReportId` applies the computed
`toInsert`, `toUpdate` and `toDelete` sets, the resulting state's active
flags exactly equal the client's submitted state for every tag id the
client mentioned, and every tag id the client omitted that previously
existed on the server is removed. -/
theorem updateReportTagList_matches_client (server client : List ReportTag)
    (hs : nodupIds server) (hc : nodupIds client) :
    (∀ t ∈ client,
      lookupActive (UpdateReportTagListByReportId server client) t.id =
        some t.active)
    ∧ (∀ i : Int, (∃ s ∈ server, s.id = i) → (∀ t ∈ client, t.id ≠ i) →
      lookupActive (UpdateReportTagListByReportId server client) i =
        none) := by
  constructor
  · intro t ht
    rw [lookupActive_UpdateReportTagList server client hs hc]
    unfold lookupActive
    rw [findTag_of_mem_nodup hc ht]
    rfl
  · intro i _ hclient
    rw [lookupActive_UpdateReportTagList server client hs hc]
    unfold lookupActive
    rw [findTag_eq_none.mpr hclient]
    rfl

/-- Concrete server state of the spec's worked diff example. -/
def serverTagsEx : List ReportTag := [⟨1, true⟩, ⟨2, false⟩]

/-- Concrete client list of the spec's worked diff example. -/
def clientTagsEx : List ReportTag := [⟨1, false⟩, ⟨3, true⟩]

/-- Witness for C1 on the spec's example: tag 1 ends inactive, tag 3 ends
active, and the omitted tag 2 is removed. -/
theorem updateReportTagList_matches_client_witness :
    lookupActive (UpdateReportTagListByReportId serverTagsEx clientTagsEx) 1 =
      some false
    ∧ lookupActive
        (UpdateReportTagListByReportId serverTagsEx clientTagsEx) 3 =
      some true
    ∧ lookupActive
        (UpdateReportTagListByReportId serverTagsEx clientTagsEx) 2 =
      none := by
  have h := updateReportTagList_matches_client serverTagsEx clientTagsEx
    (by decide) (by decide)
  exact ⟨h.1 ⟨1, false⟩ (by decide), h.1 ⟨3, true⟩ (by decide),
    h.2 2 ⟨⟨2, false⟩, by decide, rfl⟩ (by decide)⟩

/-! ## Claim C6: diff-then-apply reaches a fixed point -/

/-- C6: for every server association state and client tag list (tag ids
unduplicated on each side), re-diffing the same client list against the
state produced by the diff-then-apply operation yields empty `toInsert`,
`toUpdate` and `toDelete` sets. -/
theorem rediff_after_apply_is_empty (server client : List ReportTag)
    (hs : nodupIds server) (hc : nodupIds client) :
    computeTagDiff (UpdateReportTagListByReportId server client) client =
      ([], [], []) := by
  have hnew : nodupIds (UpdateReportTagListByReportId server client) :=
    nodupIds_UpdateReportTagList server client hs hc
  have key : ∀ i : Int,
      lookupActive (UpdateReportTagListByReportId server client) i =
        lookupActive client i :=
    lookupActive_UpdateReportTagList server client hs hc
  rw [computeTagDiff_char _ client hnew hc]
  simp only [Prod.mk.injEq]
  refine ⟨?_, ?_, ?_⟩
  · rw [List.filter_eq_nil_iff]
    intro c hcm
    have hcl : findTag client c.id = some c := findTag_of_mem_nodup hc hcm
    have hlook := key c.id
    unfold lookupActive at hlook
    rw [hcl] at hlook
    cases hf : findTag (UpdateReportTagListByReportId server client) c.id
    · rw [hf] at hlook
      simp at hlook
    · simp [hf]
  · rw [List.filter_eq_nil_iff]
    intro c hcm
    have hcl : findTag client c.id = some c := findTag_of_mem_nodup hc hcm
    have hlook := key c.id
    unfold lookupActive at hlook
    rw [hcl] at hlook
    cases hf : findTag (UpdateReportTagListByReportId server client) c.id
      with
    | none =>
      rw [hf] at hlook
      simp at hlook
    | some r =>
      rw [hf] at hlook
      simp at hlook
      simp [hf, hlook]
  · rw [List.filter_eq_nil_iff]
    intro x hxm
    have hx : (findTag (UpdateReportTagListByReportId server client)
        x.id).isSome := findTag_isSome_of_mem hxm
    have hlook := key x.id
    unfold lookupActive at hlook
    cases hf : findTag client x.id
    · rw [hf] at hlook
      cases hg : findTag (UpdateReportTagListByReportId server client) x.id
      · rw [hg] at hx
        simp at hx
      · rw [hg] at hlook
        simp at hlook
    · simp [hf]

/-- Witness for C6 on the spec's example. -/
theorem rediff_after_apply_is_empty_witness :
    computeTagDiff (UpdateReportTagListByReportId serverTagsEx clientTagsEx)
      clientTagsEx = ([], [], []) :=
  rediff_after_apply_is_empty serverTagsEx clientTagsEx (by decide)
    (by decide)

/-! ## Claim C7: the three sets are disjoint and apply order is irrelevant -/

/-- C7: for every server association state and client tag list (tag ids
unduplicated on each side), the three sets `toInsert`, `toUpdate`,
`toDelete` produced by the diff are pairwise disjoint on tag id, and
applying them in any order produces the same final association state (the
state is keyed by tag id, so it is compared via its per-tag-id lookup). -/
theorem tagDiff_disjoint_any_order (server client : List ReportTag)
    (hs : nodupIds server) (hc : nodupIds client) :
    (∀ t ∈ (computeTagDiff server client).1,
      ∀ u ∈ (computeTagDiff server client).2.1, t.id ≠ u.id)
    ∧ (∀ t ∈ (computeTagDiff server client).1,
      ∀ d ∈ (computeTagDiff server client).2.2, t.id ≠ d.id)
    ∧ (∀ u ∈ (computeTagDiff server client).2.1,
      ∀ d ∈ (computeTagDiff server client).2.2, u.id ≠ d.id)
    ∧ (∀ order : List TagOp,
      order.Perm [TagOp.insertOp, TagOp.updateOp, TagOp.deleteOp] →
      ∀ i : Int, lookupActive (applyTagOps server client order) i =
        lookupActive (UpdateReportTagListByReportId server client) i) := by
  rw [computeTagDiff_char server client hs hc]
  refine ⟨?_, ?_, ?_, ?_⟩
  · intro t ht u hu he
    have hpt := List.of_mem_filter ht
    have hpu := List.of_mem_filter hu
    simp only [Option.isNone_iff_eq_none] at hpt
    rw [he] at hpt
    cases hf : findTag server u.id
    · rw [hf] at hpu
      simp at hpu
    · rw [hf] at hpt
      simp at hpt
  · intro t ht d hd he
    have hpt := List.of_mem_filter ht
    have hdm : d ∈ server := List.mem_of_mem_filter hd
    have hds : (findTag server d.id).isSome := findTag_isSome_of_mem hdm
    simp only [Option.isNone_iff_eq_none] at hpt
    rw [he] at hpt
    rw [hpt] at hds
    simp at hds
  · intro u hu d hd he
    have hum : u ∈ client := List.mem_of_mem_filter hu
    have hus : (findTag client u.id).isSome := findTag_isSome_of_mem hum
    have hpd := List.of_mem_filter hd
    simp only [Option.isNone_iff_eq_none] at hpd
    rw [← he] at hpd
    rw [hpd] at hus
    simp at hus
  · intro order hperm i
    rw [lookupActive_applyTagOps server client hs hc order hperm i,
      lookupActive_UpdateReportTagList server client hs hc i]

/-- Witness for C7 on the spec's example: the insert set `{(3, true)}` and
delete set `{(2, false)}` are disjoint, and applying the sets in the
reversed order (delete, update, insert) gives the same per-tag lookups as
the source's order. -/
theorem tagDiff_disjoint_any_order_witness :
    (∀ t ∈ (computeTagDiff serverTagsEx clientTagsEx).1,
      ∀ d ∈ (computeTagDiff serverTagsEx clientTagsEx).2.2, t.id ≠ d.id)
    ∧ lookupActive (applyTagOps serverTagsEx clientTagsEx
        [TagOp.deleteOp, TagOp.updateOp, TagOp.insertOp]) 2 =
      lookupActive
        (UpdateReportTagListByReportId serverTagsEx clientTagsEx) 2 := by
  have h := tagDiff_disjoint_any_order serverTagsEx clientTagsEx (by decide)
    (by decide)
  exact ⟨h.2.1, h.2.2.2 [TagOp.deleteOp, TagOp.updateOp, TagOp.insertOp]
    (by decide) 2⟩

/-! ## Reports, the relational store, and the search index

A `Report` row carries the store-assigned integer id, the unique file name,
the parsed metadata and the full text (`internal/db.go`, type `Report`).
The store state is the list of report rows together with the next id the
store will assign; the search-index state is the set of documents keyed by
report id.  Strings are `List Char` as above. -/

structure Report where
  id : Int
  fileName : List Char
  name : List Char
  author : List Char
  synopsis : List Char
  text : List Char
deriving DecidableEq

/-- A search hit: a report projection plus the index's relevance score
(`internal/db.go`, type `EsReport`).  The score is numeric payload the code
never computes with, so it is modelled as an integer. -/
structure EsReport where
  report : Report
  score : Int
deriving DecidableEq

/-- Combined state of the relational store and the search index. -/
structure DbState where
  reports : List Report
  nextId : Int
  esDocs : List (Int × Report)
deriving DecidableEq

/-- `SELECT COUNT(*) FROM report WHERE file_name = $1`. -/
def countByFileName (reports : List Report) (fn : List Char) : Nat :=
  (reports.filter (fun r => r.fileName = fn)).length

/-- The elastic-search document PUT (`DoHttpPutRequest` to
`/{index}/{type}/{id}`): an upsert keyed by the report id. -/
def esPut (docs : List (Int × Report)) (id : Int) (r : Report) :
    List (Int × Report) :=
  if docs.any (fun d => d.1 == id) then
    docs.map (fun d => if d.1 == id then (id, r) else d)
  else docs ++ [(id, r)]

/-- Go `AddReportToDatabaseAndElasticSearch(fileName)` (`internal/db.go`,
lines 94–177), the per-file reconciler: count existing rows with this file
name and return unchanged if any exist; otherwise read the file (a missing
file makes `os.Open` fail and `HandleError` panic, modelled as `none`),
parse it, insert the row (the store assigns `nextId`), re-read the generated
id by file name, and push the full document to the search index under that
id.  `fs` is the static text directory as an association list from file
name to the file's lines. -/
def AddReportToDatabaseAndElasticSearch
    (fs : List (List Char × List (List Char))) (st : DbState)
    (fileName : List Char) : Option DbState :=
  if countByFileName st.reports fileName ≠ 0 then some st
  else
    match fs.find? (fun f => f.1 = fileName) with
    | none => none
    | some f =>
      let p := parseLines f.2
      let newRow : Report :=
        ⟨st.nextId, fileName, p.name, p.author, p.synopsis, p.text⟩
      let reports := st.reports ++ [newRow]
      match reports.find? (fun r => r.fileName = fileName) with
      | none => none
      | some row =>
        let report : Report :=
          ⟨row.id, fileName, p.name, p.author, p.synopsis, p.text⟩
        some ⟨reports, st.nextId + 1, esPut st.esDocs row.id report⟩

/-- Error surfaced by a repository read, raised through `HandleError`'s
panic: `database/sql` returns `sql.ErrNoRows` when `Row.Scan` finds no
row. -/
inductive DbError where
  | noRows : DbError
deriving DecidableEq

/-- Go `GetReportById` (`internal/db.go`, lines 179–205):
`SELECT id, file_name, name, author, synopsis, text FROM report WHERE
id = $1` followed by `row.Scan`.  With no matching row, `Scan` returns
`sql.ErrNoRows` and `HandleError` panics — modelled as `.error .noRows`.
With a row, the full record (including `text`) is returned. -/
def GetReportById (st : DbState) (id : Int) : Except DbError Report :=
  match st.reports.find? (fun r => r.id == id) with
  | some r => Except.ok r
  | none => Except.error DbError.noRows

/-- Comparison used to model `ORDER BY name ASC`: lexicographic order on the
name's characters. -/
def charListLe : List Char → List Char → Bool
  | [], _ => true
  | _ :: _, [] => false
  | a :: as, b :: bs =>
    if a < b then true
    else if b < a then false
    else charListLe as bs

/-- Go `GetAllReportList` (`internal/db.go`, lines 207–243):
`SELECT id, name, author, file_name, synopsis FROM report ORDER by name
ASC`, building each record with an empty `text` field (the source comment:
the full text is not returned in this call for efficiency). -/
def GetAllReportList (st : DbState) : List Report :=
  (List.insertionSort (fun a b : Report => charListLe a.name b.name = true)
      st.reports).map
    (fun r => ⟨r.id, r.fileName, r.name, r.author, r.synopsis, []⟩)

/-- Response of the report-list endpoint: either the unscored full listing
or the scored search hits (`HandleGetReportList`, `cmd` server file). -/
inductive ReportListResponse where
  | unscored : List Report → ReportListResponse
  | scored : List EsReport → ReportListResponse
deriving DecidableEq

/-- Go `HandleGetReportList` (server `main.go`): read `searchTerm` from the
query string; when it is empty, delegate to `HandleGetAllReportList`
(which serves `GetAllReportList`) without contacting the search index;
otherwise run the index query (`GetReportListForSearchTerm`, modelled by the
oracle `esSearch` since the index is an external collaborator) and return
the scored hits.  The boolean records whether the search index was
queried. -/
def HandleGetReportList (st : DbState)
    (esSearch : List Char → List EsReport) (searchTerm : List Char) :
    ReportListResponse × Bool :=
  if searchTerm = [] then
    (ReportListResponse.unscored (GetAllReportList st), false)
  else (ReportListResponse.scored (esSearch searchTerm), true)

/-- One row of the `report_tag` table: `(report_id, tag_id, active)`. -/
structure ReportTagRow where
  reportId : Int
  tagId : Int
  active : Bool
deriving DecidableEq

/-- Go `GetReportTagListByReportId` (`internal/db.go`, lines 301–342):
select the association rows of the given report (the source joins each row
with the `tag` catalog for the display name/color and orders by tag name;
the join and ordering do not change which rows are selected, in particular
an absent report id selects no rows and the loop returns an empty list). -/
def GetReportTagListByReportId (table : List ReportTagRow) (id : Int) :
    List ReportTagRow :=
  table.filter (fun row => row.reportId == id)

/-! ## Claim C2: the reconciler is idempotent per file name -/

/-- C2: reconciling the same file name twice never creates a second report
row: if a report with the file name already exists the reconciler returns
immediately with the state unchanged (no insert, no re-parse, no re-index),
and a second run after any successful run leaves the state untouched. -/
theorem reconcile_idempotent (fs : List (List Char × List (List Char)))
    (st st' : DbState) (fileName : List Char) :
    (countByFileName st.reports fileName ≠ 0 →
      AddReportToDatabaseAndElasticSearch fs st fileName = some st)
    ∧ (AddReportToDatabaseAndElasticSearch fs st fileName = some st' →
      AddReportToDatabaseAndElasticSearch fs st' fileName = some st') := by
  constructor
  · intro h
    unfold AddReportToDatabaseAndElasticSearch
    rw [if_pos h]
  · intro h
    by_cases hcount : countByFileName st.reports fileName ≠ 0
    · have h1 : AddReportToDatabaseAndElasticSearch fs st fileName =
          some st := by
        unfold AddReportToDatabaseAndElasticSearch
        rw [if_pos hcount]
      rw [h1, Option.some.injEq] at h
      subst h
      exact h1
    · unfold AddReportToDatabaseAndElasticSearch at h ⊢
      rw [if_neg hcount] at h
      cases hfind : fs.find? (fun f => f.1 = fileName) with
      | none =>
        rw [hfind] at h
        exact absurd h (by simp)
      | some f =>
        rw [hfind] at h
        simp only at h
        cases hrow : (st.reports ++
            [(⟨st.nextId, fileName, (parseLines f.2).name,
              (parseLines f.2).author, (parseLines f.2).synopsis,
              (parseLines f.2).text⟩ : Report)]).find?
            (fun r : Report => r.fileName = fileName) with
        | none =>
          rw [hrow] at h
          exact absurd h (by simp)
        | some row =>
          rw [hrow] at h
          rw [Option.some.injEq] at h
          have hst' : st'.reports = st.reports ++
              [⟨st.nextId, fileName, (parseLines f.2).name,
                (parseLines f.2).author, (parseLines f.2).synopsis,
                (parseLines f.2).text⟩] := by
            rw [← h]
          have hpos : countByFileName st'.reports fileName ≠ 0 := by
            rw [hst']
            unfold countByFileName
            rw [List.filter_append]
            simp
          rw [if_pos hpos]

/-- The one-file static directory used by the reconciliation witness. -/
def fsEx : List (List Char × List (List Char)) := [(['f'], [titleFooLine])]

/-- Empty initial store for the reconciliation witness. -/
def st0Ex : DbState := ⟨[], 1, []⟩

/-- The store after the first (successful) reconciliation of `fsEx`. -/
def st1Ex : DbState :=
  (AddReportToDatabaseAndElasticSearch fsEx st0Ex ['f']).getD st0Ex

/-- Witness for C2: after the first reconciliation of file `f` from the
empty store, a second reconciliation returns the same state unchanged. -/
theorem reconcile_idempotent_witness :
    AddReportToDatabaseAndElasticSearch fsEx st1Ex ['f'] = some st1Ex :=
  (reconcile_idempotent fsEx st0Ex st1Ex ['f']).2 (by decide)

/-! ## Claim C5: behaviour on a nonexistent id (corrected) -/

/-- C5 counterexample: on an empty store, `GetReportById 1` does not return
an empty result — `row.Scan` yields `sql.ErrNoRows` and `HandleError`
panics (modelled as the `noRows` error), which the HTTP layer converts to a
500 response. -/
theorem getReportById_errors_on_missing :
    GetReportById ⟨[], 1, []⟩ 1 = Except.error DbError.noRows := rfl

/-- C5 amended: `GetReportById` errors (panics, surfaced as HTTP 500)
exactly when no report with the id exists, rather than returning an empty
result; the tag-list read returns an empty list for a report id with no
association rows; and update/delete of an association are no-ops when no
matching row exists. -/
theorem notfound_behaviour (st : DbState) (i : Int)
    (table : List ReportTagRow) (tags : List ReportTag) (t : ReportTag) :
    (GetReportById st i = Except.error DbError.noRows ↔
      ∀ r ∈ st.reports, r.id ≠ i)
    ∧ ((∀ row ∈ table, row.reportId ≠ i) →
      GetReportTagListByReportId table i = [])
    ∧ ((∀ s ∈ tags, s.id ≠ t.id) →
      updateReportTag tags t = tags ∧ deleteReportTag tags t = tags) := by
  refine ⟨?_, ?_, ?_⟩
  · unfold GetReportById
    constructor
    · intro h r hr hri
      have hsome : (st.reports.find? (fun x => x.id == i)).isSome := by
        rw [List.find?_isSome]
        exact ⟨r, hr, by simp [hri]⟩
      cases hf : st.reports.find? (fun x => x.id == i)
      · rw [hf] at hsome
        simp at hsome
      · rw [hf] at h
        simp at h
    · intro h
      have hnone : st.reports.find? (fun x => x.id == i) = none := by
        rw [List.find?_eq_none]
        intro r hr
        simpa using h r hr
      rw [hnone]
  · intro h
    unfold GetReportTagListByReportId
    rw [List.filter_eq_nil_iff]
    intro row hrow
    simpa using h row hrow
  · intro h
    constructor
    · unfold updateReportTag
      have h2 : tags.map
          (fun s => if s.id = t.id then (⟨s.id, t.active⟩ : ReportTag) else s)
          = tags.map id :=
        List.map_congr_left (by intro s hs; rw [if_neg (h s hs)]; rfl)
      rw [h2, List.map_id]
    · unfold deleteReportTag
      apply List.filter_eq_self.mpr
      intro s hs
      simpa using h s hs

/-- Witness for C5 (amended behaviour) at concrete inputs: the empty store
errors on id 5, a table without report 5 yields an empty tag list, and
update/delete with an unmatched tag id leave the single-row state
unchanged. -/
theorem notfound_behaviour_witness :
    GetReportById st0Ex 5 = Except.error DbError.noRows
    ∧ GetReportTagListByReportId [⟨1, 2, true⟩] 5 = []
    ∧ (updateReportTag [⟨2, true⟩] ⟨1, false⟩ = [⟨2, true⟩]
      ∧ deleteReportTag [⟨2, true⟩] ⟨1, false⟩ = [⟨2, true⟩]) := by
  have h := notfound_behaviour st0Ex 5 [⟨1, 2, true⟩] [⟨2, true⟩] ⟨1, false⟩
  exact ⟨h.1.mpr (by simp [st0Ex]), h.2.1 (by decide), h.2.2 (by decide)⟩

/-! ## Claim C8: empty search term falls back to the full listing -/

/-- C8: for every store state, a search request with an empty search term
returns exactly the `GetAllReportList` result (every report, unscored, in
name order) and does not query the search index: the response is the same
for every possible index behaviour. -/
theorem empty_search_is_listAll (st : DbState)
    (esSearch esSearch' : List Char → List EsReport) :
    HandleGetReportList st esSearch [] =
      (ReportListResponse.unscored (GetAllReportList st), false)
    ∧ HandleGetReportList st esSearch [] = HandleGetReportList st esSearch' []
    ∧ (GetAllReportList st).Perm
      (st.reports.map
        (fun r => ⟨r.id, r.fileName, r.name, r.author, r.synopsis, []⟩)) := by
  refine ⟨rfl, rfl, ?_⟩
  unfold GetAllReportList
  exact (List.perm_insertionSort _ st.reports).map _

/-! ## Claim C9: text projection of the two read paths -/

/-- C9: every report returned by `GetAllReportList` has an empty `text`
field, while `GetReportById`, whenever it returns a report, returns the
stored row itself — in particular its full `text`. -/
theorem listAll_text_empty_findById_text_full (st : DbState) :
    (∀ r ∈ GetAllReportList st, r.text = [])
    ∧ (∀ i : Int, ∀ r : Report, GetReportById st i = Except.ok r →
      r ∈ st.reports ∧ r.id = i) := by
  constructor
  · intro r hr
    unfold GetAllReportList at hr
    rcases List.mem_map.mp hr with ⟨x, _, rfl⟩
    rfl
  · intro i r h
    unfold GetReportById at h
    cases hf : st.reports.find? (fun x => x.id == i) with
    | none =>
      rw [hf] at h
      exact absurd h (by simp)
    | some x =>
      rw [hf] at h
      rw [Except.ok.injEq] at h
      subst h
      refine ⟨List.mem_of_find?_eq_some hf, ?_⟩
      have := List.find?_some hf
      simpa using this

/-- A concrete stored report used by the C9 witness. -/
def reportEx : Report := ⟨1, ['f'], ['n'], ['a'], ['s'], ['t', 'x', 't']⟩

/-- Witness for C9: fetching the stored report by id returns the stored row
(with its full text) — obtained by applying the claim theorem at the
one-report store. -/
theorem listAll_text_empty_findById_text_full_witness :
    reportEx ∈ (⟨[reportEx], 2, []⟩ : DbState).reports ∧ reportEx.id = 1 :=
  (listAll_text_empty_findById_text_full ⟨[reportEx], 2, []⟩).2 1 reportEx
    rfl

end ReportViewer
